import Mathlib

/-!
Verification of the detection-consolidation pipeline of `Scripts/ovd/ovd_generate.py`:
IoU geometry, greedy class-agnostic NMS over a descending argsort, geometric filtering,
last-write-wins label lookup, chunked detector aggregation, output gating, and the
textual cleanup pass. All numeric quantities are modelled as exact rationals; a
detector invocation that raises is modelled as `Option.none`, and the uncaught Python
exceptions of the script are modelled as `Except.error`.
-/

namespace Ovd

/-- Axis-aligned box in absolute pixel coordinates `(x1, y1, x2, y2)`. -/
structure Box where
  x1 : ℚ
  y1 : ℚ
  x2 : ℚ
  y2 : ℚ
deriving DecidableEq, Repr, Inhabited

/-- Clamped area `max(0, x2 - x1) * max(0, y2 - y1)` of one box, as computed for
`area_a` and `area_b` in `iou` of ovd_generate.py. -/
def boxArea (a : Box) : ℚ :=
  max 0 (a.x2 - a.x1) * max 0 (a.y2 - a.y1)

/-- Intersection area with `max(0, ...)` clamping on the width and height differences,
as computed in `iou` of ovd_generate.py. -/
def interArea (a b : Box) : ℚ :=
  max 0 (min a.x2 b.x2 - max a.x1 b.x1) * max 0 (min a.y2 b.y2 - max a.y1 b.y1)

/-- The `iou` function of ovd_generate.py: intersection over union, returning 0 when
the union area is not positive (`inter / denom if denom > 0 else 0.0`). -/
def iou (a b : Box) : ℚ :=
  if 0 < boxArea a + boxArea b - interArea a b then
    interArea a b / (boxArea a + boxArea b - interArea a b)
  else 0

theorem interArea_nonneg (a b : Box) : 0 ≤ interArea a b :=
  mul_nonneg (le_max_left 0 _) (le_max_left 0 _)

theorem boxArea_nonneg (a : Box) : 0 ≤ boxArea a :=
  mul_nonneg (le_max_left 0 _) (le_max_left 0 _)

theorem interArea_le_left (a b : Box) : interArea a b ≤ boxArea a := by
  unfold interArea boxArea
  apply mul_le_mul
  · exact max_le_max le_rfl (sub_le_sub (min_le_left _ _) (le_max_left _ _))
  · exact max_le_max le_rfl (sub_le_sub (min_le_left _ _) (le_max_left _ _))
  · exact le_max_left 0 _
  · exact le_max_left 0 _

theorem interArea_le_right (a b : Box) : interArea a b ≤ boxArea b := by
  unfold interArea boxArea
  apply mul_le_mul
  · exact max_le_max le_rfl (sub_le_sub (min_le_right _ _) (le_max_right _ _))
  · exact max_le_max le_rfl (sub_le_sub (min_le_right _ _) (le_max_right _ _))
  · exact le_max_left 0 _
  · exact le_max_left 0 _

theorem interArea_comm (a b : Box) : interArea a b = interArea b a := by
  unfold interArea
  rw [min_comm a.x2 b.x2, max_comm a.x1 b.x1, min_comm a.y2 b.y2, max_comm a.y1 b.y1]

theorem iou_comm (a b : Box) : iou a b = iou b a := by
  unfold iou
  rw [interArea_comm, add_comm (boxArea a) (boxArea b)]

theorem iou_nonneg (a b : Box) : 0 ≤ iou a b := by
  unfold iou
  split
  · exact div_nonneg (interArea_nonneg a b) (le_of_lt (by assumption))
  · exact le_rfl

theorem iou_le_one (a b : Box) : iou a b ≤ 1 := by
  unfold iou
  split
  · rename_i h
    rw [div_le_one h]
    have h1 := interArea_le_left a b
    have h2 := interArea_le_right a b
    linarith
  · exact zero_le_one

theorem interArea_self (a : Box) : interArea a a = boxArea a := by
  unfold interArea boxArea
  rw [min_self, min_self, max_self, max_self]

/-- Claim C5: for all boxes `a` and `b`, the IoU is in `[0, 1]`; it is 1 when `a = b`
and `a` has positive clamped area; it is 0 for disjoint boxes; and it is 0 when the
union area (the guarded denominator) is 0. -/
theorem iou_bounds_spec (a b : Box) :
    (0 ≤ iou a b ∧ iou a b ≤ 1) ∧
    (a = b → 0 < boxArea a → iou a b = 1) ∧
    ((a.x2 ≤ b.x1 ∨ b.x2 ≤ a.x1 ∨ a.y2 ≤ b.y1 ∨ b.y2 ≤ a.y1) → iou a b = 0) ∧
    (boxArea a + boxArea b - interArea a b = 0 → iou a b = 0) := by
  refine ⟨⟨iou_nonneg a b, iou_le_one a b⟩, ?_, ?_, ?_⟩
  · rintro rfl hpos
    unfold iou
    rw [interArea_self]
    have hd : boxArea a + boxArea a - boxArea a = boxArea a := by ring
    rw [hd, if_pos hpos, div_self (ne_of_gt hpos)]
  · intro hdis
    have hz : interArea a b = 0 := by
      unfold interArea
      rcases hdis with h | h | h | h
      · have : min a.x2 b.x2 - max a.x1 b.x1 ≤ 0 := by
          have h1 : min a.x2 b.x2 ≤ a.x2 := min_le_left _ _
          have h2 : b.x1 ≤ max a.x1 b.x1 := le_max_right _ _
          linarith
        rw [max_eq_left this, zero_mul]
      · have : min a.x2 b.x2 - max a.x1 b.x1 ≤ 0 := by
          have h1 : min a.x2 b.x2 ≤ b.x2 := min_le_right _ _
          have h2 : a.x1 ≤ max a.x1 b.x1 := le_max_left _ _
          linarith
        rw [max_eq_left this, zero_mul]
      · have : min a.y2 b.y2 - max a.y1 b.y1 ≤ 0 := by
          have h1 : min a.y2 b.y2 ≤ a.y2 := min_le_left _ _
          have h2 : b.y1 ≤ max a.y1 b.y1 := le_max_right _ _
          linarith
        rw [max_eq_left this, mul_zero]
      · have : min a.y2 b.y2 - max a.y1 b.y1 ≤ 0 := by
          have h1 : min a.y2 b.y2 ≤ b.y2 := min_le_right _ _
          have h2 : a.y1 ≤ max a.y1 b.y1 := le_max_left _ _
          linarith
        rw [max_eq_left this, mul_zero]
    unfold iou
    rw [hz]
    split
    · exact zero_div _
    · rfl
  · intro h0
    unfold iou
    split
    · rename_i hlt
      rw [h0] at hlt
      exact absurd hlt (lt_irrefl 0)
    · rfl

/-- Witness for C5 at concrete boxes: a unit box is disjoint from a far translate, and
has IoU 1 with itself. -/
theorem iou_bounds_spec_witness :
    iou ⟨0, 0, 1, 1⟩ ⟨2, 2, 3, 3⟩ = 0 ∧ iou ⟨0, 0, 1, 1⟩ ⟨0, 0, 1, 1⟩ = 1 :=
  ⟨(iou_bounds_spec ⟨0, 0, 1, 1⟩ ⟨2, 2, 3, 3⟩).2.2.1 (Or.inl (by norm_num)),
   (iou_bounds_spec ⟨0, 0, 1, 1⟩ ⟨0, 0, 1, 1⟩).2.1 rfl (by norm_num [boxArea])⟩

/-- Clamped box width `max(0.0, x2 - x1)` computed in the kept-detection loop of `generate`. -/
def bwOf (b : Box) : ℚ := max 0 (b.x2 - b.x1)

/-- Clamped box height `max(0.0, y2 - y1)` computed in the kept-detection loop of `generate`. -/
def bhOf (b : Box) : ℚ := max 0 (b.y2 - b.y1)

/-- Normalized area `(bw * bh) / float(W * H)` computed in `generate`. -/
def normArea (b : Box) (W H : ℚ) : ℚ := bwOf b * bhOf b / (W * H)

/-- Aspect ratio computed in `generate`:
`(max(bw, bh) / max(1e-6, min(bw, bh))) if bw > 0 and bh > 0 else 1e6`. -/
def aspect (b : Box) : ℚ :=
  if 0 < bwOf b ∧ 0 < bhOf b then
    max (bwOf b) (bhOf b) / max (1 / 1000000) (min (bwOf b) (bhOf b))
  else 1000000

/-- Geometric filter of `generate`: a kept detection is dropped (the loop continues)
exactly when `area < args.min_area or asp > args.max_aspect`. -/
def geomKeep (b : Box) (W H minArea maxAspect : ℚ) : Bool :=
  if normArea b W H < minArea ∨ maxAspect < aspect b then false else true

/-- Claim C6: the geometric filter discards a detection exactly when its normalized area
is strictly below the minimum or its aspect ratio is strictly above the maximum; a box
whose area equals the minimum exactly is retained, and a box whose aspect equals the
maximum exactly is retained. -/
theorem geom_filter_boundary (b : Box) (W H mA mAsp : ℚ) :
    (geomKeep b W H mA mAsp = false ↔ (normArea b W H < mA ∨ mAsp < aspect b)) ∧
    (normArea b W H = mA → aspect b ≤ mAsp → geomKeep b W H mA mAsp = true) ∧
    (aspect b = mAsp → mA ≤ normArea b W H → geomKeep b W H mA mAsp = true) := by
  refine ⟨?_, ?_, ?_⟩
  · unfold geomKeep
    split
    · simp_all
    · simp_all
  · intro harea hasp
    unfold geomKeep
    rw [if_neg]
    rw [harea]
    push_neg
    exact ⟨le_rfl, hasp⟩
  · intro hasp harea
    unfold geomKeep
    rw [if_neg]
    rw [hasp]
    push_neg
    exact ⟨harea, le_rfl⟩

/-- Witness for C6 at a concrete box: a 50 by 50 box in a 100 by 100 image has
normalized area exactly 1/4 and aspect 1, and is retained at thresholds 1/4 and 6. -/
theorem geom_filter_boundary_witness :
    geomKeep ⟨0, 0, 50, 50⟩ 100 100 (1 / 4) 6 = true :=
  (geom_filter_boundary ⟨0, 0, 50, 50⟩ 100 100 (1 / 4) 6).2.1
    (by norm_num [normArea, bwOf, bhOf, max_def])
    (by norm_num [aspect, bwOf, bhOf, max_def, min_def])

/-- The `xyxy_to_yolo` function of ovd_generate.py: absolute corners to fractional
center-box form `(cx, cy, bw, bh)`. -/
def xyxy_to_yolo (x1 y1 x2 y2 w h : ℚ) : ℚ × ℚ × ℚ × ℚ :=
  (((x1 + x2) / 2) / w, ((y1 + y2) / 2) / h, (x2 - x1) / w, (y2 - y1) / h)

/-- Modelled from the spec: the inverse conversion from fractional center-box form back
to absolute corners using the same image size. The repository only contains the forward
`xyxy_to_yolo`; the spec round-trip property fixes the inverse as
`x1 = (cx - w/2)*W, y1 = (cy - h/2)*H, x2 = (cx + w/2)*W, y2 = (cy + h/2)*H`. -/
def yolo_to_xyxy (cx cy bw bh w h : ℚ) : ℚ × ℚ × ℚ × ℚ :=
  ((cx - bw / 2) * w, (cy - bh / 2) * h, (cx + bw / 2) * w, (cy + bh / 2) * h)

/-- Convert a box to normalized form and back with the same image size. -/
def roundTrip (x1 y1 x2 y2 w h : ℚ) : ℚ × ℚ × ℚ × ℚ :=
  match xyxy_to_yolo x1 y1 x2 y2 w h with
  | (cx, cy, bw, bh) => yolo_to_xyxy cx cy bw bh w h

/-- Claim C7: for any absolute box and any positive image size, converting to normalized
center-box form and back with the same size reconstructs every coordinate within an
absolute tolerance of 1/10000 (in exact rational arithmetic the round trip is exact). -/
theorem xyxy_yolo_roundtrip (x1 y1 x2 y2 W H : ℚ) (hW : 0 < W) (hH : 0 < H) :
    |(roundTrip x1 y1 x2 y2 W H).1 - x1| ≤ 1 / 10000 ∧
    |(roundTrip x1 y1 x2 y2 W H).2.1 - y1| ≤ 1 / 10000 ∧
    |(roundTrip x1 y1 x2 y2 W H).2.2.1 - x2| ≤ 1 / 10000 ∧
    |(roundTrip x1 y1 x2 y2 W H).2.2.2 - y2| ≤ 1 / 10000 := by
  have hW0 : W ≠ 0 := ne_of_gt hW
  have hH0 : H ≠ 0 := ne_of_gt hH
  have h1 : (roundTrip x1 y1 x2 y2 W H).1 = x1 := by
    simp only [roundTrip, xyxy_to_yolo, yolo_to_xyxy]
    field_simp
    ring
  have h2 : (roundTrip x1 y1 x2 y2 W H).2.1 = y1 := by
    simp only [roundTrip, xyxy_to_yolo, yolo_to_xyxy]
    field_simp
    ring
  have h3 : (roundTrip x1 y1 x2 y2 W H).2.2.1 = x2 := by
    simp only [roundTrip, xyxy_to_yolo, yolo_to_xyxy]
    field_simp
    ring
  have h4 : (roundTrip x1 y1 x2 y2 W H).2.2.2 = y2 := by
    simp only [roundTrip, xyxy_to_yolo, yolo_to_xyxy]
    field_simp
    ring
  rw [h1, h2, h3, h4, sub_self, sub_self, sub_self, sub_self, abs_zero]
  norm_num

/-- Witness for C7 at a concrete box and image size. -/
theorem xyxy_yolo_roundtrip_witness :
    |(roundTrip 3 4 10 20 100 50).1 - 3| ≤ 1 / 10000 ∧
    |(roundTrip 3 4 10 20 100 50).2.1 - 4| ≤ 1 / 10000 ∧
    |(roundTrip 3 4 10 20 100 50).2.2.1 - 10| ≤ 1 / 10000 ∧
    |(roundTrip 3 4 10 20 100 50).2.2.2 - 20| ≤ 1 / 10000 :=
  xyxy_yolo_roundtrip 3 4 10 20 100 50 (by norm_num) (by norm_num)

/-- Ascending insertion of an index by score: the new index goes after any
already-placed index of equal score. Building block of the argsort model. -/
def insIdx (s : ℕ → ℚ) (i : ℕ) : List ℕ → List ℕ
  | [] => [i]
  | j :: l => if s i < s j then i :: j :: l else j :: insIdx s i l

/-- Left-fold insertion sort over indices, inserting in list order. Models
`np.argsort(scores)` (ascending). The default numpy sort (`kind` quicksort) leaves
the relative order of equal keys unspecified, so this model fixes one deterministic
instance of it: the insertion sort numpy itself uses below its small-array cutoff,
which keeps equal keys in input order. Except for the concrete tie counterexample of
claim C4 (stated at size 2, inside the insertion-sort regime where numpy provably
behaves like this model), every property proved below is invariant to how equal keys
are ordered. -/
def argsortAscAux (s : ℕ → ℚ) (acc : List ℕ) : List ℕ → List ℕ
  | [] => acc
  | i :: l => argsortAscAux s (insIdx s i acc) l

/-- Line 59 of ovd_generate.py: `idxs = np.argsort(scores)[::-1]` — indices by
descending score. The tie order among equal scores is inherited from the
`argsortAscAux` model instance and is not a guarantee of the program. -/
def argsortDesc (scores : List ℚ) : List ℕ :=
  (argsortAscAux (fun i => scores.getD i 0) [] (List.range scores.length)).reverse

theorem insIdx_perm (s : ℕ → ℚ) (i : ℕ) (l : List ℕ) :
    (insIdx s i l).Perm (i :: l) := by
  induction l with
  | nil => exact List.Perm.refl _
  | cons j l ih =>
    unfold insIdx
    split
    · exact List.Perm.refl _
    · exact (ih.cons j).trans (List.Perm.swap i j l)

theorem argsortAscAux_perm (s : ℕ → ℚ) (l acc : List ℕ) :
    (argsortAscAux s acc l).Perm (acc ++ l) := by
  induction l generalizing acc with
  | nil => simp [argsortAscAux]
  | cons i l ih =>
    refine (ih (insIdx s i acc)).trans ?_
    refine ((insIdx_perm s i acc).append_right l).trans ?_
    rw [List.cons_append]
    exact List.perm_middle.symm

theorem argsortDesc_perm (scores : List ℚ) :
    (argsortDesc scores).Perm (List.range scores.length) := by
  unfold argsortDesc
  exact (List.reverse_perm _).trans ((argsortAscAux_perm _ _ _).trans (by simp))

/-- Ascending placement order used by the argsort model: strictly smaller score first,
equal scores ordered by original index. -/
def ordAsc (s : ℕ → ℚ) (i j : ℕ) : Prop := s i < s j ∨ (s i = s j ∧ i < j)

theorem ordAsc_le {s : ℕ → ℚ} {i j : ℕ} (h : ordAsc s i j) : s i ≤ s j := by
  rcases h with h | ⟨h, _⟩
  · exact le_of_lt h
  · exact le_of_eq h

theorem insIdx_mem {s : ℕ → ℚ} {i a : ℕ} {l : List ℕ} (h : a ∈ insIdx s i l) :
    a = i ∨ a ∈ l :=
  List.mem_cons.mp ((insIdx_perm s i l).mem_iff.mp h)

theorem insIdx_pairwise {s : ℕ → ℚ} {i : ℕ} {acc : List ℕ}
    (hp : acc.Pairwise (ordAsc s)) (hlt : ∀ a ∈ acc, a < i) :
    (insIdx s i acc).Pairwise (ordAsc s) := by
  induction acc with
  | nil => simp [insIdx, List.pairwise_cons]
  | cons j l ih =>
    rw [List.pairwise_cons] at hp
    obtain ⟨hj, hl⟩ := hp
    unfold insIdx
    split
    · rename_i hij
      rw [List.pairwise_cons]
      constructor
      · intro a ha
        rcases List.mem_cons.mp ha with rfl | ha
        · exact Or.inl hij
        · exact Or.inl (lt_of_lt_of_le hij (ordAsc_le (hj a ha)))
      · exact List.pairwise_cons.mpr ⟨hj, hl⟩
    · rename_i hij
      rw [List.pairwise_cons]
      constructor
      · intro a ha
        rcases insIdx_mem ha with rfl | ha
        · rcases lt_or_eq_of_le (not_lt.mp hij) with h | h
          · exact Or.inl h
          · exact Or.inr ⟨h, hlt j (List.mem_cons_self j l)⟩
        · exact hj a ha
      · exact ih hl (fun a ha => hlt a (List.mem_cons_of_mem j ha))

theorem argsortAscAux_pairwise {s : ℕ → ℚ} {l acc : List ℕ}
    (hacc : acc.Pairwise (ordAsc s))
    (hcross : ∀ a ∈ acc, ∀ b ∈ l, a < b)
    (hl : l.Pairwise (· < ·)) :
    (argsortAscAux s acc l).Pairwise (ordAsc s) := by
  induction l generalizing acc with
  | nil => exact hacc
  | cons i l ih =>
    rw [List.pairwise_cons] at hl
    obtain ⟨hi, hl⟩ := hl
    refine ih (insIdx_pairwise hacc (fun a ha => hcross a ha i (List.mem_cons_self i l)))
      ?_ hl
    intro a ha b hb
    rcases insIdx_mem ha with rfl | ha
    · exact hi b hb
    · exact hcross a ha b (List.mem_cons_of_mem i hb)

/-- The order in which `argsortDesc` emits indices: strictly larger score first, and
among equal scores the later (larger) original index first. -/
theorem argsortDesc_pairwise (scores : List ℚ) :
    (argsortDesc scores).Pairwise (fun i j =>
      scores.getD j 0 < scores.getD i 0 ∨
      (scores.getD j 0 = scores.getD i 0 ∧ j < i)) := by
  unfold argsortDesc
  rw [List.pairwise_reverse]
  exact argsortAscAux_pairwise (List.Pairwise.nil) (by simp) (List.pairwise_lt_range _)

/-- The greedy suppression loop of `nms` in ovd_generate.py: keep the first (highest
scoring) remaining index, drop every other remaining index with IoU at or above the
threshold, repeat on the survivors. `fuel` bounds the number of iterations; `nms`
passes the length of the index list, which the loop can never exceed because every
iteration consumes at least the head index. -/
def nmsFuel (b : ℕ → Box) (thr : ℚ) : ℕ → List ℕ → List ℕ
  | 0, _ => []
  | _ + 1, [] => []
  | fuel + 1, i :: rest =>
    i :: nmsFuel b thr fuel (rest.filter fun j => iou (b i) (b j) < thr)

/-- The `nms` function of ovd_generate.py, over boxes indexed by position. -/
def nms (boxes : List Box) (scores : List ℚ) (iouThr : ℚ) : List ℕ :=
  nmsFuel (fun i => boxes.getD i default) iouThr
    (argsortDesc scores).length (argsortDesc scores)

theorem nmsFuel_sublist (b : ℕ → Box) (thr : ℚ) :
    ∀ (fuel : ℕ) (l : List ℕ), (nmsFuel b thr fuel l).Sublist l := by
  intro fuel
  induction fuel with
  | zero => intro l; exact List.nil_sublist l
  | succ fuel ih =>
    intro l
    cases l with
    | nil => exact List.Sublist.refl _
    | cons i rest =>
      exact (ih _).trans (List.filter_sublist rest) |>.cons₂ i

theorem nmsFuel_pairwise (b : ℕ → Box) (thr : ℚ) :
    ∀ (fuel : ℕ) (l : List ℕ),
      (nmsFuel b thr fuel l).Pairwise (fun i j => iou (b i) (b j) < thr) := by
  intro fuel
  induction fuel with
  | zero => intro l; exact List.Pairwise.nil
  | succ fuel ih =>
    intro l
    cases l with
    | nil => exact List.Pairwise.nil
    | cons i rest =>
      rw [nmsFuel, List.pairwise_cons]
      refine ⟨?_, ih _⟩
      intro j hj
      have hmem := (nmsFuel_sublist b thr fuel _).mem hj
      have := List.of_mem_filter hmem
      exact of_decide_eq_true this

/-- Claim C3: greedy class-agnostic NMS — the kept index set is no larger than the
input, and any two distinct kept detections have IoU strictly below the threshold
(suppression at IoU at or above the threshold is irrespective of label: `nms` never
consults labels). -/
theorem nms_greedy_spec (boxes : List Box) (scores : List ℚ) (τ : ℚ) :
    (nms boxes scores τ).length ≤ scores.length ∧
    ∀ i ∈ nms boxes scores τ, ∀ j ∈ nms boxes scores τ, i ≠ j →
      iou (boxes.getD i default) (boxes.getD j default) < τ := by
  constructor
  · have h1 := (nmsFuel_sublist (fun i => boxes.getD i default) τ
      (argsortDesc scores).length (argsortDesc scores)).length_le
    have h2 := (argsortDesc_perm scores).length_eq
    simpa [nms, h2] using h1
  · have hp := nmsFuel_pairwise (fun i => boxes.getD i default) τ
      (argsortDesc scores).length (argsortDesc scores)
    have hsymm : Symmetric (fun i j =>
        iou (boxes.getD i default) (boxes.getD j default) < τ) := by
      intro i j h
      rwa [iou_comm]
    intro i hi j hj hij
    exact List.Pairwise.forall hsymm hp hi hj hij

/-- Claim C4 (amended): NMS processes and emits kept detections in non-increasing
score order, and the consolidated output follows that kept order; no relative order
among equal-score detections is guaranteed (the default numpy argsort is not stable),
and in particular they do not in general keep their insertion order. This statement
is invariant to how the argsort model orders equal scores. -/
theorem nms_order_spec (boxes : List Box) (scores : List ℚ) (τ : ℚ) :
    (nms boxes scores τ).Pairwise (fun i j =>
      scores.getD j 0 ≤ scores.getD i 0) := by
  unfold nms
  have hp := (argsortDesc_pairwise scores).sublist
    (nmsFuel_sublist (fun i => boxes.getD i default) τ
      (argsortDesc scores).length (argsortDesc scores))
  refine hp.imp ?_
  intro i j h
  rcases h with h | ⟨h, _⟩
  · exact le_of_lt h
  · exact le_of_eq h

/-- Witness for C3 at a concrete input: two disjoint boxes with scores 9/10 and 8/10
are both kept at threshold 1/2, and their IoU is strictly below 1/2. -/
theorem nms_greedy_spec_witness :
    iou (([⟨0, 0, 1, 1⟩, ⟨5, 5, 6, 6⟩] : List Box).getD 0 default)
      (([⟨0, 0, 1, 1⟩, ⟨5, 5, 6, 6⟩] : List Box).getD 1 default) < 1 / 2 :=
  (nms_greedy_spec [⟨0, 0, 1, 1⟩, ⟨5, 5, 6, 6⟩] [9 / 10, 8 / 10] (1 / 2)).2 0
    (by norm_num [nms, argsortDesc, argsortAscAux, insIdx, nmsFuel, iou, interArea,
      boxArea, max_def, min_def, List.range_succ, List.getD, List.filter_cons])
    1
    (by norm_num [nms, argsortDesc, argsortAscAux, insIdx, nmsFuel, iou, interArea,
      boxArea, max_def, min_def, List.range_succ, List.getD, List.filter_cons])
    (by norm_num)

/-- Counterexample to claim C4: two non-overlapping detections with equal scores are
emitted by `nms` as `[1, 0]`, the reverse of their insertion (aggregation) order
`[0, 1]`. At two elements the numpy argsort is an insertion sort (stable ascending,
exactly the model), so `np.argsort(scores)[::-1]` provably reverses the tie order
here: the kept order does not preserve insertion order for equal scores. -/
theorem nms_stability_counterexample :
    ([1 / 2, 1 / 2] : List ℚ).getD 0 0 = ([1 / 2, 1 / 2] : List ℚ).getD 1 0 ∧
    nms [⟨0, 0, 1, 1⟩, ⟨5, 5, 6, 6⟩] [1 / 2, 1 / 2] (1 / 2) = [1, 0] ∧
    nms [⟨0, 0, 1, 1⟩, ⟨5, 5, 6, 6⟩] [1 / 2, 1 / 2] (1 / 2) ≠ [0, 1] := by
  have h : nms [⟨0, 0, 1, 1⟩, ⟨5, 5, 6, 6⟩] [1 / 2, 1 / 2] (1 / 2) = [1, 0] := by
    norm_num [nms, argsortDesc, argsortAscAux, insIdx, nmsFuel, iou, interArea,
      boxArea, max_def, min_def, List.range_succ, List.getD, List.filter_cons]
  refine ⟨by norm_num, h, ?_⟩
  rw [h]
  decide

/-- One raw detection aggregated for an image: absolute-pixel box, score, and global
label index (an integer, so that the Python indexing semantics on it can be stated). -/
structure RawDet where
  box : Box
  score : ℚ
  label : ℤ
deriving DecidableEq, Repr, Inhabited

/-- The external detector capability for a fixed image: takes one chunk of prompt
texts and returns raw (box, score, chunk-local label offset) triples; `none` models an
invocation that raises (fails or times out). -/
abbrev Detector : Type := List String → Option (List (Box × ℚ × ℕ))

/-- The body of the chunk loop of `generate` (lines 109 to 124), one call per chunk
start offset: invoke the detector on `prompts[start:start+chunk_size]`, re-index the
chunk-local label offsets by adding `start`, and append. The loop body contains no
exception handling, so a raising invocation (modelled as `none`) propagates. -/
def aggChunks (det : Detector) (prompts : List String) (cs : ℕ) :
    List ℕ → Option (List RawDet)
  | [] => some []
  | start :: more =>
    match det ((prompts.drop start).take cs) with
    | none => none
    | some res =>
      match aggChunks det prompts cs more with
      | none => none
      | some rest =>
        some ((res.map fun t =>
          { box := t.1, score := t.2.1, label := (t.2.2 : ℤ) + start }) ++ rest)

/-- Chunk start offsets `range(0, len(prompts), chunk_size)` of `generate`, with
`chunk_size = max(1, args.prompt_chunk)`. -/
def chunkStarts (n cs : ℕ) : List ℕ :=
  (List.range ((n + max 1 cs - 1) / max 1 cs)).map (· * max 1 cs)

/-- The whole per-image chunk loop of `generate`: aggregate the raw detections of
every chunk of the prompt catalog, or propagate the first invocation failure. -/
def aggregate (det : Detector) (prompts : List String) (cs : ℕ) :
    Option (List RawDet) :=
  aggChunks det prompts (max 1 cs) (chunkStarts prompts.length cs)

/-- Counterexample to claim C1: a detector whose single-chunk invocation raises makes
the aggregation for the image return `none` (the exception propagates and aborts the
image and the run) instead of contributing an empty detection set `some []` — lines
109 to 124 of `generate` contain no try/except, only image decoding is guarded. -/
theorem chunk_error_counterexample :
    aggregate (fun _ => none) ["a"] 1 = none ∧
    aggregate (fun _ => none) ["a"] 1 ≠ some [] := by
  refine ⟨rfl, ?_⟩
  intro h
  rw [show aggregate (fun _ => none) ["a"] 1 = none from rfl] at h
  exact Option.noConfusion h

theorem aggChunks_fail_mem (det : Detector) (prompts : List String) (cs : ℕ)
    (starts : List ℕ) (start : ℕ) (hmem : start ∈ starts)
    (hfail : det ((prompts.drop start).take cs) = none) :
    aggChunks det prompts cs starts = none := by
  induction starts with
  | nil => cases hmem
  | cons s more ih =>
    rcases List.mem_cons.mp hmem with rfl | hmem
    · unfold aggChunks
      rw [hfail]
    · unfold aggChunks
      cases hdet : det ((prompts.drop s).take cs) with
      | none => rfl
      | some res =>
        rw [ih hmem]

/-- Claim C1 (amended): a chunk whose detector invocation fails is not tolerated — if
any invoked chunk raises, the aggregation of the image returns `none`, aborting the
processing of the image (and, uncaught, the run); the failing chunk never contributes
an empty detection set. -/
theorem chunk_error_aborts (det : Detector) (prompts : List String) (cs start : ℕ)
    (hs : start ∈ chunkStarts prompts.length cs)
    (hfail : det ((prompts.drop start).take (max 1 cs)) = none) :
    aggregate det prompts cs = none := by
  unfold aggregate
  exact aggChunks_fail_mem det prompts (max 1 cs) (chunkStarts prompts.length cs)
    start hs hfail

/-- Witness for the amended C1 at a concrete input: with a two-prompt catalog, chunk
size 1, and a detector that raises on every chunk, the aggregation returns `none`. -/
theorem chunk_error_aborts_witness :
    aggregate (fun _ => none) ["a", "b"] 1 = none :=
  chunk_error_aborts (fun _ => none) ["a", "b"] 1 0 (by decide) rfl

/-- Python list indexing `l[i]`: a negative index counts from the end of the list, and
an index out of range raises IndexError, modelled as `none`. -/
def pyGet (l : List String) (i : ℤ) : Option String :=
  if 0 ≤ i then l[i.toNat]?
  else if 0 ≤ i + l.length then l[(i + l.length).toNat]? else none

/-- Index of the last occurrence of `nm` in a list, if any. -/
def lastOcc (nm : String) : List String → Option ℕ
  | [] => none
  | p :: rest =>
    match lastOcc nm rest with
    | some k => some (k + 1)
    | none => if p = nm then some 0 else none

/-- Line 83 of ovd_generate.py: `name_to_id = {name: i for i, name in enumerate(prompts)}`.
The dict comprehension inserts in catalog order, so a later duplicate text overwrites
an earlier one — last write wins. -/
def name_to_id (prompts : List String) (nm : String) : Option ℕ :=
  prompts.enum.foldl (fun acc p => if p.2 = nm then some p.1 else acc) none

theorem foldl_enumFrom_lastOcc (nm : String) (l : List String) :
    ∀ (n : ℕ) (acc : Option ℕ),
      (List.enumFrom n l).foldl (fun acc p => if p.2 = nm then some p.1 else acc) acc =
        match lastOcc nm l with
        | some k => some (n + k)
        | none => acc := by
  induction l with
  | nil => intro n acc; rfl
  | cons p rest ih =>
    intro n acc
    rw [List.enumFrom_cons, List.foldl_cons, ih (n + 1) _]
    cases hlo : lastOcc nm rest with
    | some k =>
      simp only [lastOcc, hlo]
      congr 1
      omega
    | none =>
      by_cases hp : p = nm <;> simp [lastOcc, hlo, hp]

theorem name_to_id_eq_lastOcc (prompts : List String) (nm : String) :
    name_to_id prompts nm = lastOcc nm prompts := by
  unfold name_to_id
  rw [show prompts.enum = List.enumFrom 0 prompts from rfl, foldl_enumFrom_lastOcc]
  cases h : lastOcc nm prompts <;> simp

theorem lastOcc_getElem (nm : String) (l : List String) (k : ℕ)
    (h : lastOcc nm l = some k) : l[k]? = some nm := by
  induction l generalizing k with
  | nil => simp [lastOcc] at h
  | cons p rest ih =>
    unfold lastOcc at h
    cases hlo : lastOcc nm rest with
    | some k2 =>
      rw [hlo] at h
      obtain rfl : k2 + 1 = k := Option.some.inj h
      rw [List.getElem?_cons_succ]
      exact ih k2 hlo
    | none =>
      rw [hlo] at h
      by_cases hp : p = nm
      · rw [if_pos hp] at h
        obtain rfl : 0 = k := Option.some.inj h
        rw [List.getElem?_cons_zero, hp]
      · rw [if_neg hp] at h
        exact Option.noConfusion h

theorem lastOcc_none (nm : String) (l : List String) (h : lastOcc nm l = none) :
    ∀ m : ℕ, l[m]? ≠ some nm := by
  induction l with
  | nil => intro m; simp
  | cons p rest ih =>
    unfold lastOcc at h
    cases hlo : lastOcc nm rest with
    | some k2 =>
      rw [hlo] at h
      exact Option.noConfusion h
    | none =>
      rw [hlo] at h
      by_cases hp : p = nm
      · rw [if_pos hp] at h
        exact Option.noConfusion h
      · intro m
        cases m with
        | zero =>
          rw [List.getElem?_cons_zero]
          intro hc
          exact hp (Option.some.inj hc)
        | succ m =>
          rw [List.getElem?_cons_succ]
          exact ih hlo m

theorem lastOcc_greatest (nm : String) (l : List String) (k : ℕ)
    (h : lastOcc nm l = some k) : ∀ m : ℕ, k < m → l[m]? ≠ some nm := by
  induction l generalizing k with
  | nil => simp [lastOcc] at h
  | cons p rest ih =>
    unfold lastOcc at h
    cases hlo : lastOcc nm rest with
    | some k2 =>
      rw [hlo] at h
      obtain rfl : k2 + 1 = k := Option.some.inj h
      intro m hm
      cases m with
      | zero => omega
      | succ m =>
        rw [List.getElem?_cons_succ]
        exact ih k2 hlo m (by omega)
    | none =>
      rw [hlo] at h
      by_cases hp : p = nm
      · rw [if_pos hp] at h
        obtain rfl : 0 = k := Option.some.inj h
        intro m hm
        cases m with
        | zero => omega
        | succ m =>
          rw [List.getElem?_cons_succ]
          exact lastOcc_none nm rest hlo m
      · rw [if_neg hp] at h
        exact Option.noConfusion h

theorem lastOcc_isSome_of_mem (nm : String) (l : List String) (h : nm ∈ l) :
    ∃ k, lastOcc nm l = some k := by
  induction l with
  | nil => cases h
  | cons p rest ih =>
    unfold lastOcc
    cases hlo : lastOcc nm rest with
    | some k => exact ⟨k + 1, rfl⟩
    | none =>
      rcases List.mem_cons.mp h with rfl | hmem
      · exact ⟨0, by simp⟩
      · obtain ⟨k, hk⟩ := ih hmem
        rw [hk] at hlo
        exact Option.noConfusion hlo

/-- Lines 142 and 143 of `generate`: `cls_name = prompts[labels_idx[i]]` followed by
`cls_id = name_to_id.get(cls_name, None)`. The Python indexing can raise IndexError
(`Except.error`); the dictionary lookup yields the last-write-wins id. -/
def writtenId (prompts : List String) (lbl : ℤ) : Except Unit (Option ℕ) :=
  match pyGet prompts lbl with
  | none => Except.error ()
  | some nm => Except.ok (name_to_id prompts nm)

/-- One serialized output line `"<cls_id> <cx> <cy> <w> <h>"` of `generate`, with the
numeric fields kept exact instead of 6-decimal strings. -/
structure YoloLine where
  cls : ℕ
  cx : ℚ
  cy : ℚ
  w : ℚ
  h : ℚ
deriving DecidableEq, Repr

/-- The body of the kept-detection loop of `generate` (lines 133 to 147) for one kept
detection: geometric filter (`continue` is `Except.ok none`), label resolution (an
uncaught IndexError is `Except.error`, a missed dictionary lookup is a skip), then
coordinate conversion and line construction. -/
def buildLine (prompts : List String) (W H minArea maxAspect : ℚ) (d : RawDet) :
    Except Unit (Option YoloLine) :=
  if geomKeep d.box W H minArea maxAspect then
    match writtenId prompts d.label with
    | Except.error e => Except.error e
    | Except.ok none => Except.ok none
    | Except.ok (some cid) =>
      Except.ok (some
        { cls := cid,
          cx := (xyxy_to_yolo d.box.x1 d.box.y1 d.box.x2 d.box.y2 W H).1,
          cy := (xyxy_to_yolo d.box.x1 d.box.y1 d.box.x2 d.box.y2 W H).2.1,
          w := (xyxy_to_yolo d.box.x1 d.box.y1 d.box.x2 d.box.y2 W H).2.2.1,
          h := (xyxy_to_yolo d.box.x1 d.box.y1 d.box.x2 d.box.y2 W H).2.2.2 })
  else Except.ok none

/-- Counterexample to claim C2: a detection that survives NMS and the geometric filter
but carries label index 1 against the one-entry catalog `["a"]` makes the line-building
step raise (IndexError at `prompts[labels_idx[i]]`) instead of being silently
discarded — the discarding `name_to_id.get` guard sits after the raising indexing. -/
theorem label_out_of_range_counterexample :
    buildLine ["a"] 100 100 0 100 { box := ⟨0, 0, 50, 50⟩, score := 1 / 2, label := 1 } =
      Except.error () := by
  have hg : geomKeep (⟨0, 0, 50, 50⟩ : Box) 100 100 0 100 = true := by
    norm_num [geomKeep, normArea, aspect, bwOf, bhOf, max_def, min_def]
  have hpg : pyGet ["a"] 1 = none := by
    unfold pyGet
    norm_num
  have hwid : writtenId ["a"] 1 = Except.error () := by
    simp only [writtenId, hpg]
  simp only [buildLine, hg, if_true, hwid]

/-- Claim C2 (amended): for a detection surviving the geometric filter, a label index
at or above the catalog size, or below minus the catalog size, raises an uncaught
IndexError (aborting the processing) rather than being discarded; a negative index
within minus the catalog size resolves Python-style from the end of the catalog and is
written, also not discarded. -/
theorem label_out_of_range_spec (prompts : List String) (W H mA mAsp : ℚ) (d : RawDet)
    (hgeom : geomKeep d.box W H mA mAsp = true) :
    ((prompts.length : ℤ) ≤ d.label ∨ d.label < -(prompts.length : ℤ) →
      buildLine prompts W H mA mAsp d = Except.error ()) ∧
    (-(prompts.length : ℤ) ≤ d.label → d.label < 0 →
      ∃ line, buildLine prompts W H mA mAsp d = Except.ok (some line)) := by
  constructor
  · intro hout
    have hpg : pyGet prompts d.label = none := by
      unfold pyGet
      rcases hout with h | h
      · rw [if_pos (by omega)]
        apply List.getElem?_eq_none
        omega
      · rw [if_neg (by omega), if_neg (by omega)]
    have hwid : writtenId prompts d.label = Except.error () := by
      simp only [writtenId, hpg]
    simp only [buildLine, hgeom, if_true, hwid]
  · intro hlb hub
    have hidx : (d.label + (prompts.length : ℤ)).toNat < prompts.length := by omega
    have hex : ∃ nm, pyGet prompts d.label = some nm ∧ nm ∈ prompts := by
      unfold pyGet
      rw [if_neg (by omega), if_pos (by omega)]
      rw [List.getElem?_eq_getElem hidx]
      exact ⟨_, rfl, List.getElem_mem hidx⟩
    obtain ⟨nm, hpg, hnm⟩ := hex
    obtain ⟨k, hk⟩ := lastOcc_isSome_of_mem nm prompts hnm
    have hwid : writtenId prompts d.label = Except.ok (some k) := by
      simp only [writtenId, hpg]
      rw [name_to_id_eq_lastOcc, hk]
    refine ⟨⟨k,
        (xyxy_to_yolo d.box.x1 d.box.y1 d.box.x2 d.box.y2 W H).1,
        (xyxy_to_yolo d.box.x1 d.box.y1 d.box.x2 d.box.y2 W H).2.1,
        (xyxy_to_yolo d.box.x1 d.box.y1 d.box.x2 d.box.y2 W H).2.2.1,
        (xyxy_to_yolo d.box.x1 d.box.y1 d.box.x2 d.box.y2 W H).2.2.2⟩, ?_⟩
    simp only [buildLine, hgeom, if_true, hwid]

/-- Witness for the amended C2 at a concrete input: label index 2 against the one-entry
catalog `["a"]` raises. -/
theorem label_out_of_range_spec_witness :
    buildLine ["a"] 100 100 0 100 { box := ⟨0, 0, 50, 50⟩, score := 1 / 2, label := 2 } =
      Except.error () :=
  (label_out_of_range_spec ["a"] 100 100 0 100
      { box := ⟨0, 0, 50, 50⟩, score := 1 / 2, label := 2 }
      (by norm_num [geomKeep, normArea, aspect, bwOf, bhOf, max_def, min_def])).1
    (Or.inl (by norm_num))

/-- Claim C10: for a detection whose label index is a valid position in the catalog,
the class id written to the output line is obtained by mapping the label text through
the last-write-wins lookup — it is the greatest catalog position carrying that text,
not necessarily the index the detection arrived with. -/
theorem written_id_last_wins (prompts : List String) (j : ℕ) (hj : j < prompts.length) :
    ∃ k, writtenId prompts (j : ℤ) = Except.ok (some k) ∧
      prompts[k]? = prompts[j]? ∧
      ∀ m : ℕ, k < m → prompts[m]? ≠ prompts[j]? := by
  have hjq : prompts[j]? = some prompts[j] := List.getElem?_eq_getElem hj
  have hmem : prompts[j] ∈ prompts := List.getElem_mem hj
  obtain ⟨k, hk⟩ := lastOcc_isSome_of_mem prompts[j] prompts hmem
  have hpg : pyGet prompts (j : ℤ) = some prompts[j] := by
    unfold pyGet
    rw [if_pos (by omega)]
    rw [show ((j : ℤ)).toNat = j from rfl]
    exact hjq
  have hwid : writtenId prompts (j : ℤ) = Except.ok (some k) := by
    simp only [writtenId, hpg]
    rw [name_to_id_eq_lastOcc, hk]
  refine ⟨k, hwid, ?_, ?_⟩
  · rw [lastOcc_getElem prompts[j] prompts k hk, hjq]
  · intro m hm
    rw [hjq]
    exact lastOcc_greatest prompts[j] prompts k hk m hm

/-- Witness for C10 at a concrete catalog with a duplicate text: `["a", "b", "a"]` and
a detection carrying index 0 (the earlier duplicate of "a"). -/
theorem written_id_last_wins_witness :
    ∃ k, writtenId ["a", "b", "a"] ((0 : ℕ) : ℤ) = Except.ok (some k) ∧
      (["a", "b", "a"] : List String)[k]? = (["a", "b", "a"] : List String)[(0 : ℕ)]? ∧
      ∀ m : ℕ, k < m →
        (["a", "b", "a"] : List String)[m]? ≠ (["a", "b", "a"] : List String)[(0 : ℕ)]? :=
  written_id_last_wins ["a", "b", "a"] 0 (by norm_num)

/-- Lines 149 to 163 of `generate`: `if not yolo_lines: continue` gates everything, the
image is copied only when the destination does not already exist, and the label file is
then written. Returns (whether the image copy is performed, the label file content if
one is written). Each surviving detection appends exactly one line, so the line list is
nonempty exactly when at least one detection survives consolidation. -/
def writeOutputs (yoloLines : List YoloLine) (dstExists : Bool) :
    Bool × Option (List YoloLine) :=
  if yoloLines.isEmpty then (false, none)
  else (!dstExists, some yoloLines)

/-- Claim C8: a label artifact is written iff the consolidated line list is nonempty;
with zero survivors neither the label file is written nor the image copied; and the
copy is skipped whenever the destination already exists. -/
theorem write_gating_spec (ls : List YoloLine) (e : Bool) :
    ((writeOutputs ls e).2 = some ls ↔ ls ≠ []) ∧
    (ls = [] → writeOutputs ls e = (false, none)) ∧
    ((writeOutputs ls e).1 = true ↔ (ls ≠ [] ∧ e = false)) := by
  cases ls <;> cases e <;> simp [writeOutputs]

/-- Witness for C8 at a concrete input: zero survivors yield no copy and no label file. -/
theorem write_gating_spec_witness : writeOutputs [] true = (false, none) :=
  (write_gating_spec [] true).2.1 rfl

/-- Python `str.strip()` on a line of a label file: drop leading and trailing
whitespace. Stated structurally over the character list so that it is computable by
the kernel (`String.trim` of the core library is extensionally the same operation). -/
def pyStrip (s : String) : String :=
  String.mk (((s.data.dropWhile Char.isWhitespace).reverse.dropWhile
    Char.isWhitespace).reverse)

/-- De-duplication keeping first occurrences, with an accumulator of already seen
lines: the order-preserving semantics of `list(dict.fromkeys(lines))` in `clean`. -/
def pyDedupAux (seen : List String) : List String → List String
  | [] => []
  | s :: rest =>
    if s ∈ seen then pyDedupAux seen rest else s :: pyDedupAux (s :: seen) rest

/-- Line 175 of ovd_generate.py: `uniq = list(dict.fromkeys(lines))`. -/
def pyDedup (l : List String) : List String := pyDedupAux [] l

/-- Line 171 of ovd_generate.py: strip every line and drop the blank ones. -/
def cleanLines (raw : List String) : List String :=
  (raw.map pyStrip).filter fun s => s ≠ ""

/-- One iteration of the `clean` loop over one label file, given the raw lines of the
file: `none` when the file is left untouched (no nonblank lines, or no duplicate
removed), `some uniq` when it is rewritten with the de-duplicated lines. -/
def cleanFile (raw : List String) : Option (List String) :=
  if (cleanLines raw).isEmpty then none
  else if pyDedup (cleanLines raw) = cleanLines raw then none
  else some (pyDedup (cleanLines raw))

/-- The `updated` counter printed by `clean`: the number of rewritten files. -/
def cleanCount (files : List (List String)) : ℕ :=
  (files.filterMap cleanFile).length

theorem pyDedupAux_mem (a : String) :
    ∀ (l seen : List String), a ∈ pyDedupAux seen l ↔ a ∈ l ∧ a ∉ seen := by
  intro l
  induction l with
  | nil => intro seen; simp [pyDedupAux]
  | cons s rest ih =>
    intro seen
    unfold pyDedupAux
    by_cases hs : s ∈ seen
    · rw [if_pos hs, ih]
      constructor
      · rintro ⟨h1, h2⟩
        exact ⟨List.mem_cons_of_mem s h1, h2⟩
      · rintro ⟨h1, h2⟩
        rcases List.mem_cons.mp h1 with rfl | h1
        · exact absurd hs h2
        · exact ⟨h1, h2⟩
    · rw [if_neg hs]
      constructor
      · intro h
        rcases List.mem_cons.mp h with rfl | h
        · exact ⟨List.mem_cons_self a rest, hs⟩
        · obtain ⟨h1, h2⟩ := (ih (s :: seen)).mp h
          exact ⟨List.mem_cons_of_mem s h1,
            fun hc => h2 (List.mem_cons_of_mem s hc)⟩
      · rintro ⟨h1, h2⟩
        rcases List.mem_cons.mp h1 with rfl | h1
        · exact List.mem_cons_self a _
        · by_cases ha : a = s
          · exact ha ▸ List.mem_cons_self a _
          · refine List.mem_cons_of_mem s ((ih (s :: seen)).mpr ⟨h1, ?_⟩)
            intro hc
            rcases List.mem_cons.mp hc with h | h
            · exact ha h
            · exact h2 h

theorem pyDedupAux_nodup : ∀ (l seen : List String), (pyDedupAux seen l).Nodup := by
  intro l
  induction l with
  | nil => intro seen; simp [pyDedupAux]
  | cons s rest ih =>
    intro seen
    unfold pyDedupAux
    by_cases hs : s ∈ seen
    · rw [if_pos hs]
      exact ih seen
    · rw [if_neg hs]
      refine List.nodup_cons.mpr ⟨?_, ih (s :: seen)⟩
      intro hc
      exact ((pyDedupAux_mem s rest (s :: seen)).mp hc).2 (List.mem_cons_self s seen)

theorem pyDedupAux_sublist : ∀ (l seen : List String), (pyDedupAux seen l).Sublist l := by
  intro l
  induction l with
  | nil => intro seen; exact List.Sublist.refl _
  | cons s rest ih =>
    intro seen
    unfold pyDedupAux
    by_cases hs : s ∈ seen
    · rw [if_pos hs]
      exact (ih seen).cons s
    · rw [if_neg hs]
      exact (ih (s :: seen)).cons₂ s

theorem pyDedupAux_eq_self : ∀ (l seen : List String), l.Nodup →
    (∀ a ∈ l, a ∉ seen) → pyDedupAux seen l = l := by
  intro l
  induction l with
  | nil => intro seen _ _; rfl
  | cons s rest ih =>
    intro seen hnd hout
    rw [List.nodup_cons] at hnd
    unfold pyDedupAux
    rw [if_neg (hout s (List.mem_cons_self s rest))]
    congr 1
    refine ih (s :: seen) hnd.2 ?_
    intro a ha hc
    rcases List.mem_cons.mp hc with rfl | hc
    · exact hnd.1 ha
    · exact hout a (List.mem_cons_of_mem s ha) hc

theorem pyDedup_eq_self_iff (l : List String) : pyDedup l = l ↔ l.Nodup := by
  constructor
  · intro h
    have hnd := pyDedupAux_nodup l []
    rwa [show pyDedupAux [] l = pyDedup l from rfl, h] at hnd
  · intro h
    exact pyDedupAux_eq_self l [] h (by simp)

/-- Claim C9: the cleanup pass drops blank lines, removes exact duplicate lines while
keeping first occurrences in order, rewrites a file only when a duplicate was actually
removed, counts only rewritten files, and leaves a duplicate-free file untouched; in
particular lines `[A, B, A, C]` become `[A, B, C]` and count one modified file. -/
theorem clean_spec :
    (∀ raw out, cleanFile raw = some out →
      out = pyDedup (cleanLines raw) ∧ out.Nodup ∧ out.Sublist (cleanLines raw) ∧
      ∀ s, s ∈ out ↔ s ∈ cleanLines raw) ∧
    (∀ raw, cleanLines raw ≠ [] → (cleanFile raw = none ↔ (cleanLines raw).Nodup)) ∧
    cleanFile ["A", "B", "A", "C"] = some ["A", "B", "C"] ∧
    cleanCount [["A", "B", "A", "C"]] = 1 ∧
    cleanFile ["A", "B", "C"] = none ∧
    cleanCount [["A", "B", "C"]] = 0 := by
  refine ⟨?_, ?_, ?_, ?_, ?_, ?_⟩
  · intro raw out h
    unfold cleanFile at h
    by_cases he : (cleanLines raw).isEmpty
    · rw [if_pos he] at h
      exact Option.noConfusion h
    · rw [if_neg he] at h
      by_cases heq : pyDedup (cleanLines raw) = cleanLines raw
      · rw [if_pos heq] at h
        exact Option.noConfusion h
      · rw [if_neg heq] at h
        obtain rfl : pyDedup (cleanLines raw) = out := Option.some.inj h
        refine ⟨rfl, pyDedupAux_nodup _ _, pyDedupAux_sublist _ _, ?_⟩
        intro s
        rw [show pyDedup (cleanLines raw) = pyDedupAux [] (cleanLines raw) from rfl,
          pyDedupAux_mem]
        simp
  · intro raw hne
    unfold cleanFile
    rw [if_neg (by simpa [List.isEmpty_iff] using hne)]
    by_cases heq : pyDedup (cleanLines raw) = cleanLines raw
    · rw [if_pos heq]
      simp [(pyDedup_eq_self_iff (cleanLines raw)).mp heq]
    · rw [if_neg heq]
      constructor
      · intro hc
        exact Option.noConfusion hc
      · intro hnd
        exact absurd ((pyDedup_eq_self_iff (cleanLines raw)).mpr hnd) heq
  · decide
  · decide
  · decide
  · decide

/-- Witness for C9: applying the specification to the concrete file `[A, B, A, C]`
yields the de-duplicated content `[A, B, C]`, which has no duplicate lines. -/
theorem clean_spec_witness :
    pyDedup (cleanLines ["A", "B", "A", "C"]) = ["A", "B", "C"] ∧
    (["A", "B", "C"] : List String).Nodup :=
  ⟨(clean_spec.1 ["A", "B", "A", "C"] ["A", "B", "C"] (by decide)).1.symm,
   (clean_spec.1 ["A", "B", "A", "C"] ["A", "B", "C"] (by decide)).2.1⟩

end Ovd
